import Mathlib

set_option autoImplicit false

/-!
Verification of the credential provider of `backend/ssgrpc/cred.go`
(`perRPCCreds.GetRequestMetadata` and `perRPCCreds.RequireTransportSecurity`).

The Go struct `perRPCCreds` holds `tokenStr string`, `tokenExpire int64`,
`sharedKey []byte` and a `*sync.RWMutex`.  We embed the data as
`PerRPCCreds` (bytes as `List Nat`, times as `Int` Unix seconds).

`token.GenUserToken(subject, ttl, key)` lives in a package outside the
sources at hand, so the embedding is parameterised by the issuer: a
function from subject, ttl and key to either an error message or the pair
`(u.EXP, tokenString)` that the Go call destructures.  The current time
`time.Now().Unix()` is passed explicitly as `now`.

`GetRequestMetadata` mirrors the Go body statement by statement for a
single call: snapshot the three fields (taken under the read lock),
allocate the empty metadata map, refresh when `exp - 300 < now`
(returning the issuance error with the still-empty map if issuance
fails, else writing both fields back under the write lock), and finally
set `meta["authorization"] = "Bearer " + tok`.  The interleaved,
multi-thread semantics of the same body is developed separately in the
`Concurrent` namespace below.
-/

namespace SSGrpc

/-- The mutable credential record of `perRPCCreds` (the mutex is modelled
by the semantics, not stored). -/
structure PerRPCCreds where
  tokenStr : String
  tokenExpire : Int
  sharedKey : List Nat
  deriving Repr, DecidableEq

/-- Seconds in `time.Hour`, the ttl passed to `token.GenUserToken`. -/
def timeHour : Int := 3600

/-- The literal `300` subtracted from the expiry in the refresh test. -/
def refreshMargin : Int := 300

/-- Type of the external `token.GenUserToken`: subject, ttl and key to
either an error or `(u.EXP, tokenString)`. -/
def Issuer : Type := String → Int → List Nat → Except String (Int × String)

/-- Result of one `GetRequestMetadata` call: the credential state after
the call, the returned metadata map (as an association list) and the
returned error. -/
structure CallResult where
  state : PerRPCCreds
  meta : List (String × String)
  err : Option String
  deriving Repr, DecidableEq

/-- Sequential semantics of `perRPCCreds.GetRequestMetadata`.  The `ctx`
and variadic `uri` parameters of the Go method are taken but never
inspected, exactly as in the source. -/
def GetRequestMetadata {Ctx : Type} (gen : Issuer) (ctx : Ctx) (uri : List String)
    (now : Int) (c : PerRPCCreds) : CallResult :=
  let exp := c.tokenExpire
  let tok := c.tokenStr
  let sharedKey := c.sharedKey
  if exp - refreshMargin < now then
    match gen "ssgrpcClient" timeHour sharedKey with
    | Except.error e => { state := c, meta := [], err := some e }
    | Except.ok (uEXP, t) =>
        { state := { c with tokenExpire := uEXP, tokenStr := t },
          meta := [("authorization", "Bearer " ++ t)],
          err := none }
  else
    { state := c, meta := [("authorization", "Bearer " ++ tok)], err := none }

/-- Semantics of `perRPCCreds.RequireTransportSecurity`. -/
def RequireTransportSecurity (c : PerRPCCreds) : Bool :=
  true

/-- Splits a character list at dots, accumulating the current field in
reverse. -/
def splitDotsAux : List Char → List Char → List (List Char)
  | [], acc => [acc.reverse]
  | ch :: rest, acc =>
      if ch = '.' then acc.reverse :: splitDotsAux rest []
      else splitDotsAux rest (ch :: acc)

/-- Dot-separated fields of a character list. -/
def splitDots (cs : List Char) : List (List Char) :=
  splitDotsAux cs []

/-- Parses a non-empty all-digit character list as a natural number. -/
def parseNatAux : List Char → Nat → Option Nat
  | [], acc => some acc
  | ch :: rest, acc =>
      if ch.isDigit then parseNatAux rest (acc * 10 + (ch.toNat - 48))
      else none

/-- Parses a non-empty all-digit character list; empty input fails. -/
def parseNat : List Char → Option Nat
  | [] => none
  | ch :: rest => parseNatAux (ch :: rest) 0

/-- Expiry encoded in a token string: the second dot-separated field,
parsed as a number.  Modelled from the spec: the Token Authority is not
among the sources at hand, and the spec states that `tokenString`
encodes an expiry that `expiresAtUnix` must always reflect. -/
def decodeTokenExp (t : String) : Option Int :=
  match (splitDots t.toList).get? 1 with
  | none => none
  | some cs => (parseNat cs).map Int.ofNat

/-- Modelled from the spec: `token.GenUserToken` (the Token Authority's
`issue(subject, ttl, secret) -> (token, expiresAtUnix)`), which is not
among the sources at hand.  Issuance signs subject and expiry with the
secret and can fail (`IssuanceError`, e.g. a signing failure, modelled
here as an empty secret); the returned token string encodes the returned
expiry `now + ttl`. -/
def GenUserToken (subject : String) (ttl : Int) (secret : List Nat) (now : Int) :
    Except String (Int × String) :=
  if secret.isEmpty then Except.error "signing failure"
  else Except.ok (now + ttl,
    subject ++ "." ++ toString (now + ttl) ++ "." ++
      toString (secret.foldl (fun a b => a + b) 0))

/-- The spec's credential invariant: the stored expiry reflects the
expiry encoded in the stored token string. -/
def credInvariant (c : PerRPCCreds) : Prop :=
  decodeTokenExp c.tokenStr = some c.tokenExpire

/-- C1: a new token is issued if and only if `tokenExpire - 300 < now`:
under that condition the call's outcome is exactly the issuance outcome
of `gen`, otherwise the stored token is returned and nothing is issued;
in particular a credential whose expiry is one hour out
(`tokenExpire = now + 3600`) does not trigger a refresh. -/
theorem getRequestMetadata_refresh_iff {Ctx : Type} (gen : Issuer) (ctx : Ctx)
    (uri : List String) (now : Int) (c : PerRPCCreds) :
    (c.tokenExpire - refreshMargin < now →
      GetRequestMetadata gen ctx uri now c =
        (match gen "ssgrpcClient" timeHour c.sharedKey with
         | Except.error e => { state := c, meta := [], err := some e }
         | Except.ok (uEXP, t) =>
             { state := { c with tokenExpire := uEXP, tokenStr := t },
               meta := [("authorization", "Bearer " ++ t)], err := none }))
    ∧ (¬ c.tokenExpire - refreshMargin < now →
      GetRequestMetadata gen ctx uri now c =
        { state := c, meta := [("authorization", "Bearer " ++ c.tokenStr)], err := none })
    ∧ (c.tokenExpire = now + timeHour →
      GetRequestMetadata gen ctx uri now c =
        { state := c, meta := [("authorization", "Bearer " ++ c.tokenStr)], err := none }) := by
  refine ⟨fun h => ?_, fun h => ?_, fun h => ?_⟩
  · simp only [GetRequestMetadata, if_pos h]
  · simp only [GetRequestMetadata, if_neg h]
  · have h2 : ¬ c.tokenExpire - refreshMargin < now := by
      rw [h]; simp only [timeHour, refreshMargin]; omega
    simp only [GetRequestMetadata, if_neg h2]

/-- Witness for C1 at a concrete input: a stale credential
(expiry 1000, now 2000) is refreshed with the issued token. -/
theorem getRequestMetadata_refresh_iff_witness :
    GetRequestMetadata (fun _ _ _ => Except.ok ((9999 : Int), "newTok")) () [] 2000
        ⟨"old", 1000, [1]⟩ =
      { state := ⟨"newTok", 9999, [1]⟩,
        meta := [("authorization", "Bearer " ++ "newTok")], err := none } :=
  (getRequestMetadata_refresh_iff (fun _ _ _ => Except.ok ((9999 : Int), "newTok")) () []
      2000 ⟨"old", 1000, [1]⟩).1 (by decide)

/-- C3: when issuance fails during a refresh, the call returns that very
error together with the still-empty metadata map, which contains no
authorization entry at all. -/
theorem getRequestMetadata_issuance_error {Ctx : Type} (gen : Issuer) (ctx : Ctx)
    (uri : List String) (now : Int) (c : PerRPCCreds) (e : String)
    (herr : gen "ssgrpcClient" timeHour c.sharedKey = Except.error e)
    (href : c.tokenExpire - refreshMargin < now) :
    GetRequestMetadata gen ctx uri now c = { state := c, meta := [], err := some e }
    ∧ (GetRequestMetadata gen ctx uri now c).meta.lookup "authorization" = none := by
  have hmain : GetRequestMetadata gen ctx uri now c =
      { state := c, meta := [], err := some e } := by
    simp only [GetRequestMetadata, if_pos href, herr]
  exact ⟨hmain, by rw [hmain]; rfl⟩

/-- Witness for C3 at a concrete input: issuance fails with "boom" and
the call surfaces it with an empty metadata map. -/
theorem getRequestMetadata_issuance_error_witness :
    GetRequestMetadata (fun _ _ _ => (Except.error "boom" : Except String (Int × String)))
        () [] 2000 ⟨"old", 1000, [1]⟩ =
      { state := ⟨"old", 1000, [1]⟩, meta := [], err := some "boom" }
    ∧ (GetRequestMetadata (fun _ _ _ => (Except.error "boom" : Except String (Int × String)))
        () [] 2000 ⟨"old", 1000, [1]⟩).meta.lookup "authorization" = none :=
  getRequestMetadata_issuance_error (fun _ _ _ => Except.error "boom") () [] 2000
    ⟨"old", 1000, [1]⟩ "boom" rfl (by decide)

/-- C4: when issuance fails, every stored field (`tokenStr`,
`tokenExpire`, `sharedKey`) is exactly as before the call. -/
theorem getRequestMetadata_error_keeps_state {Ctx : Type} (gen : Issuer) (ctx : Ctx)
    (uri : List String) (now : Int) (c : PerRPCCreds) (e : String)
    (herr : gen "ssgrpcClient" timeHour c.sharedKey = Except.error e) :
    (GetRequestMetadata gen ctx uri now c).state.tokenStr = c.tokenStr
    ∧ (GetRequestMetadata gen ctx uri now c).state.tokenExpire = c.tokenExpire
    ∧ (GetRequestMetadata gen ctx uri now c).state.sharedKey = c.sharedKey := by
  by_cases h : c.tokenExpire - refreshMargin < now
  · simp [GetRequestMetadata, if_pos h, herr]
  · simp [GetRequestMetadata, if_neg h]

/-- Witness for C4 at a concrete input: a failing issuer leaves the
credential fields untouched. -/
theorem getRequestMetadata_error_keeps_state_witness :
    (GetRequestMetadata (fun _ _ _ => (Except.error "boom" : Except String (Int × String)))
        () [] 2000 ⟨"old", 1000, [1]⟩).state.tokenStr = "old"
    ∧ (GetRequestMetadata (fun _ _ _ => (Except.error "boom" : Except String (Int × String)))
        () [] 2000 ⟨"old", 1000, [1]⟩).state.tokenExpire = 1000
    ∧ (GetRequestMetadata (fun _ _ _ => (Except.error "boom" : Except String (Int × String)))
        () [] 2000 ⟨"old", 1000, [1]⟩).state.sharedKey = [1] :=
  getRequestMetadata_error_keeps_state (fun _ _ _ => Except.error "boom") () [] 2000
    ⟨"old", 1000, [1]⟩ "boom" rfl

/-- C5: provided every token the issuer returns encodes its own expiry
(the Token Authority contract), a call preserves the invariant that the
stored `tokenExpire` is the expiry encoded in the stored `tokenStr`:
both fields are written together from one issuance result or not at
all. -/
theorem getRequestMetadata_expiry_matches_token {Ctx : Type} (gen : Issuer) (ctx : Ctx)
    (uri : List String) (now : Int) (c : PerRPCCreds)
    (hgen : ∀ uEXP t, gen "ssgrpcClient" timeHour c.sharedKey = Except.ok (uEXP, t) →
      decodeTokenExp t = some uEXP)
    (hc : credInvariant c) :
    credInvariant (GetRequestMetadata gen ctx uri now c).state := by
  by_cases h : c.tokenExpire - refreshMargin < now
  · cases hg : gen "ssgrpcClient" timeHour c.sharedKey with
    | error e => simpa only [GetRequestMetadata, if_pos h, hg] using hc
    | ok p =>
      obtain ⟨uEXP, t⟩ := p
      have ht := hgen uEXP t hg
      simpa only [GetRequestMetadata, if_pos h, hg, credInvariant] using ht
  · simpa only [GetRequestMetadata, if_neg h] using hc

/-- Witness for C5 at a concrete input: the spec-modelled issuer refreshes
a stale credential and the invariant still holds afterwards. -/
theorem getRequestMetadata_expiry_matches_token_witness :
    credInvariant (GetRequestMetadata (fun s ttl k => GenUserToken s ttl k 500) () [] 900
      ⟨"a.1000.b", 1000, [1]⟩).state :=
  getRequestMetadata_expiry_matches_token (fun s ttl k => GenUserToken s ttl k 500) () []
    900 ⟨"a.1000.b", 1000, [1]⟩
    (by
      intro uEXP t h
      have h2 : (Except.ok ((4100 : Int), "ssgrpcClient.4100.1") :
          Except String (Int × String)) = Except.ok (uEXP, t) := h
      injection h2 with h1
      injection h1 with h3 h4
      rw [← h3, ← h4]
      decide)
    (by unfold credInvariant; decide)

/-- C6: a call that returns without error returns exactly the map binding
"authorization" to "Bearer " followed by the (post-call) stored token
string — a non-empty bearer entry. -/
theorem getRequestMetadata_authorization_entry {Ctx : Type} (gen : Issuer) (ctx : Ctx)
    (uri : List String) (now : Int) (c : PerRPCCreds)
    (hok : (GetRequestMetadata gen ctx uri now c).err = none) :
    (GetRequestMetadata gen ctx uri now c).meta =
      [("authorization", "Bearer " ++ (GetRequestMetadata gen ctx uri now c).state.tokenStr)]
    ∧ (GetRequestMetadata gen ctx uri now c).meta.lookup "authorization" =
      some ("Bearer " ++ (GetRequestMetadata gen ctx uri now c).state.tokenStr)
    ∧ "Bearer " ++ (GetRequestMetadata gen ctx uri now c).state.tokenStr ≠ "" := by
  have hne : ∀ s : String, "Bearer " ++ s ≠ "" := by
    intro s h
    have := congrArg String.length h
    simp [String.length_append] at this
    exact absurd this.1 (by decide)
  by_cases h : c.tokenExpire - refreshMargin < now
  · cases hg : gen "ssgrpcClient" timeHour c.sharedKey with
    | error e =>
      exfalso
      simp only [GetRequestMetadata, if_pos h, hg] at hok
      exact Option.some_ne_none e hok
    | ok p =>
      obtain ⟨uEXP, t⟩ := p
      refine ⟨?_, ?_, hne _⟩ <;> simp [GetRequestMetadata, if_pos h, hg, List.lookup]
  · refine ⟨?_, ?_, hne _⟩ <;> simp [GetRequestMetadata, if_neg h, List.lookup]

/-- Witness for C6 at a concrete input: a current credential yields the
bearer entry for the stored token. -/
theorem getRequestMetadata_authorization_entry_witness :
    (GetRequestMetadata (fun _ _ _ => (Except.error "x" : Except String (Int × String)))
        () [] 0 ⟨"tokZ", 10000, []⟩).meta =
      [("authorization", "Bearer " ++
        (GetRequestMetadata (fun _ _ _ => (Except.error "x" : Except String (Int × String)))
          () [] 0 ⟨"tokZ", 10000, []⟩).state.tokenStr)]
    ∧ (GetRequestMetadata (fun _ _ _ => (Except.error "x" : Except String (Int × String)))
        () [] 0 ⟨"tokZ", 10000, []⟩).meta.lookup "authorization" =
      some ("Bearer " ++
        (GetRequestMetadata (fun _ _ _ => (Except.error "x" : Except String (Int × String)))
          () [] 0 ⟨"tokZ", 10000, []⟩).state.tokenStr)
    ∧ "Bearer " ++
        (GetRequestMetadata (fun _ _ _ => (Except.error "x" : Except String (Int × String)))
          () [] 0 ⟨"tokZ", 10000, []⟩).state.tokenStr ≠ "" :=
  getRequestMetadata_authorization_entry (fun _ _ _ => Except.error "x") () [] 0
    ⟨"tokZ", 10000, []⟩ (by decide)

/-- C7: when `tokenExpire - 300 ≥ now` the call returns the stored token
and changes nothing: the whole result is the untouched state, the bearer
entry for the stored token, and no error. -/
theorem getRequestMetadata_current_noop {Ctx : Type} (gen : Issuer) (ctx : Ctx)
    (uri : List String) (now : Int) (c : PerRPCCreds)
    (h : now ≤ c.tokenExpire - refreshMargin) :
    GetRequestMetadata gen ctx uri now c =
      { state := c, meta := [("authorization", "Bearer " ++ c.tokenStr)], err := none } := by
  simp only [GetRequestMetadata, if_neg (not_lt.mpr h)]

/-- Witness for C7 at a concrete input: a far-future expiry leaves the
credential untouched. -/
theorem getRequestMetadata_current_noop_witness :
    GetRequestMetadata (fun _ _ _ => (Except.error "x" : Except String (Int × String)))
        () [] 0 ⟨"tokZ", 10000, []⟩ =
      { state := ⟨"tokZ", 10000, []⟩,
        meta := [("authorization", "Bearer " ++ "tokZ")], err := none } :=
  getRequestMetadata_current_noop (fun _ _ _ => Except.error "x") () [] 0
    ⟨"tokZ", 10000, []⟩ (by decide)

/-- C8: `RequireTransportSecurity` returns true for every credential
value, unconditionally. -/
theorem requireTransportSecurity_always_true (c : PerRPCCreds) :
    RequireTransportSecurity c = true :=
  rfl

/-- C9: no path of `GetRequestMetadata` writes `sharedKey`: whatever the
issuer does and whether or not a refresh occurs, the stored key after
the call is the stored key before it. -/
theorem getRequestMetadata_sharedKey_unchanged {Ctx : Type} (gen : Issuer) (ctx : Ctx)
    (uri : List String) (now : Int) (c : PerRPCCreds) :
    (GetRequestMetadata gen ctx uri now c).state.sharedKey = c.sharedKey := by
  by_cases h : c.tokenExpire - refreshMargin < now
  · cases hg : gen "ssgrpcClient" timeHour c.sharedKey with
    | error e => simp only [GetRequestMetadata, if_pos h, hg]
    | ok p =>
      obtain ⟨uEXP, t⟩ := p
      simp only [GetRequestMetadata, if_pos h, hg]
  · simp only [GetRequestMetadata, if_neg h]

/-- C10: the refresh path consults the issuer only at subject
"ssgrpcClient", ttl one hour and the stored key, and the call result does
not depend on the context or the URIs: two issuers agreeing on that one
application, under any contexts and URI lists, give identical results. -/
theorem getRequestMetadata_fixed_issue_args {Ctx1 Ctx2 : Type} (gen1 gen2 : Issuer)
    (ctx1 : Ctx1) (ctx2 : Ctx2) (uri1 uri2 : List String) (now : Int) (c : PerRPCCreds)
    (hgen : gen1 "ssgrpcClient" timeHour c.sharedKey
      = gen2 "ssgrpcClient" timeHour c.sharedKey) :
    GetRequestMetadata gen1 ctx1 uri1 now c = GetRequestMetadata gen2 ctx2 uri2 now c := by
  simp only [GetRequestMetadata, hgen]

/-- Witness for C10 at concrete inputs: two issuers that differ at other
ttls, called with different context types, contexts and URI lists, give
the same result. -/
theorem getRequestMetadata_fixed_issue_args_witness :
    GetRequestMetadata (fun s _ _ => Except.ok ((1 : Int), s)) () [] 5 ⟨"o", 0, [2]⟩ =
      GetRequestMetadata
        (fun s ttl _ => if ttl = timeHour then Except.ok ((1 : Int), s)
          else Except.error "wrongttl")
        (42 : Nat) ["u"] 5 ⟨"o", 0, [2]⟩ :=
  getRequestMetadata_fixed_issue_args (fun s _ _ => Except.ok ((1 : Int), s))
    (fun s ttl _ => if ttl = timeHour then Except.ok ((1 : Int), s)
      else Except.error "wrongttl")
    () (42 : Nat) [] ["u"] 5 ⟨"o", 0, [2]⟩ rfl

namespace Concurrent

/-!
Interleaved semantics of `GetRequestMetadata` for `n` concurrent calls
sharing one `perRPCCreds` and its `sync.RWMutex`.  Each call is a thread
executing the statements of the Go body in order; every shared-memory
access and every lock operation is one atomic step, so the reads of
`tokenExpire` and `tokenStr` inside the read-locked section are separate
steps, as are the two writes inside the write-locked section.  The
RWMutex is modelled by a reader count and a writer flag: `RLock` requires
no writer, `Lock` requires no writer and no readers.
-/

/-- Program counter of one call, one value per atomic statement of the
Go body. -/
inductive PC where
  | start
  | readExp
  | readTok
  | readKey
  | runlock
  | check
  | callGen
  | lock
  | writeExp
  | writeStr
  | unlock
  | doneOk
  | doneErr (msg : String)
  deriving Repr, DecidableEq

/-- One thread: program counter, the local variables `exp`, `tok`,
`sharedKey` of the Go body, and the value `time.Now().Unix()` this call
observes. -/
structure Thread where
  pc : PC
  exp : Int
  tok : String
  key : List Nat
  now : Int
  deriving Repr, DecidableEq

/-- The shared credential fields together with the RWMutex state. -/
structure Shared where
  tokenExpire : Int
  tokenStr : String
  sharedKey : List Nat
  readers : Nat
  writer : Bool
  deriving Repr, DecidableEq

/-- A configuration: the shared state plus `n` threads. -/
structure Config (n : Nat) where
  shared : Shared
  threads : Fin n → Thread

/-- One atomic step of a single thread against the shared state. -/
inductive TStep (gen : Issuer) : Shared → Thread → Shared → Thread → Prop where
  | rlock (s : Shared) (t : Thread) (hpc : t.pc = PC.start) (hw : s.writer = false) :
      TStep gen s t { s with readers := s.readers + 1 } { t with pc := PC.readExp }
  | readExp (s : Shared) (t : Thread) (hpc : t.pc = PC.readExp) :
      TStep gen s t s { t with pc := PC.readTok, exp := s.tokenExpire }
  | readTok (s : Shared) (t : Thread) (hpc : t.pc = PC.readTok) :
      TStep gen s t s { t with pc := PC.readKey, tok := s.tokenStr }
  | readKey (s : Shared) (t : Thread) (hpc : t.pc = PC.readKey) :
      TStep gen s t s { t with pc := PC.runlock, key := s.sharedKey }
  | runlock (s : Shared) (t : Thread) (hpc : t.pc = PC.runlock) :
      TStep gen s t { s with readers := s.readers - 1 } { t with pc := PC.check }
  | checkTrue (s : Shared) (t : Thread) (hpc : t.pc = PC.check)
      (hcond : t.exp - refreshMargin < t.now) :
      TStep gen s t s { t with pc := PC.callGen }
  | checkFalse (s : Shared) (t : Thread) (hpc : t.pc = PC.check)
      (hcond : ¬ t.exp - refreshMargin < t.now) :
      TStep gen s t s { t with pc := PC.doneOk }
  | genOk (s : Shared) (t : Thread) (uEXP : Int) (tk : String) (hpc : t.pc = PC.callGen)
      (hgen : gen "ssgrpcClient" timeHour t.key = Except.ok (uEXP, tk)) :
      TStep gen s t s { t with pc := PC.lock, exp := uEXP, tok := tk }
  | genErr (s : Shared) (t : Thread) (msg : String) (hpc : t.pc = PC.callGen)
      (hgen : gen "ssgrpcClient" timeHour t.key = Except.error msg) :
      TStep gen s t s { t with pc := PC.doneErr msg }
  | lock (s : Shared) (t : Thread) (hpc : t.pc = PC.lock) (hw : s.writer = false)
      (hr : s.readers = 0) :
      TStep gen s t { s with writer := true } { t with pc := PC.writeExp }
  | writeExp (s : Shared) (t : Thread) (hpc : t.pc = PC.writeExp) :
      TStep gen s t { s with tokenExpire := t.exp } { t with pc := PC.writeStr }
  | writeStr (s : Shared) (t : Thread) (hpc : t.pc = PC.writeStr) :
      TStep gen s t { s with tokenStr := t.tok } { t with pc := PC.unlock }
  | unlock (s : Shared) (t : Thread) (hpc : t.pc = PC.unlock) :
      TStep gen s t { s with writer := false } { t with pc := PC.doneOk }

/-- One interleaving step: some thread takes one atomic step. -/
inductive Step (gen : Issuer) {n : Nat} : Config n → Config n → Prop where
  | mk (c : Config n) (i : Fin n) (s2 : Shared) (t2 : Thread)
      (hstep : TStep gen c.shared (c.threads i) s2 t2) :
      Step gen c { shared := s2, threads := Function.update c.threads i t2 }

/-- Reflexive-transitive closure of `Step`. -/
inductive Reachable (gen : Issuer) {n : Nat} : Config n → Config n → Prop where
  | refl (c : Config n) : Reachable gen c c
  | tail (c1 c2 c3 : Config n) (h1 : Reachable gen c1 c2) (h2 : Step gen c2 c3) :
      Reachable gen c1 c3

/-- A thread about to start a call at local time `now`. -/
def initThread (now : Int) : Thread :=
  { pc := PC.start, exp := 0, tok := "", key := [], now := now }

/-- Initial configuration: stored pair `(e0, t0)`, key `k0`, lock free,
every thread about to call. -/
def initConfig (n : Nat) (e0 : Int) (t0 : String) (k0 : List Nat)
    (nows : Fin n → Int) : Config n :=
  { shared := { tokenExpire := e0, tokenStr := t0, sharedKey := k0,
                readers := 0, writer := false },
    threads := fun i => initThread (nows i) }

/-- Program counters inside the read-locked section. -/
def inReadSection : PC → Bool
  | PC.readExp => true
  | PC.readTok => true
  | PC.readKey => true
  | PC.runlock => true
  | _ => false

/-- Program counters inside the write-locked section. -/
def inWriteSection : PC → Bool
  | PC.writeExp => true
  | PC.writeStr => true
  | PC.unlock => true
  | _ => false

/-- Program counters at which the thread locals hold a fresh issuance
result (from the `Lock` call on). -/
def inLockZone : PC → Bool
  | PC.lock => true
  | PC.writeExp => true
  | PC.writeStr => true
  | PC.unlock => true
  | _ => false

/-- Program counters at which the thread locals hold a complete snapshot
of the shared pair. -/
def inSnapZone : PC → Bool
  | PC.readKey => true
  | PC.runlock => true
  | PC.check => true
  | _ => false

/-- Program counters at which the local key snapshot is already taken
and may still be passed to the issuer. -/
def inKeyZone : PC → Bool
  | PC.runlock => true
  | PC.check => true
  | PC.callGen => true
  | _ => false

/-- A finished call (returned, with or without error). -/
def finished : PC → Bool
  | PC.doneOk => true
  | PC.doneErr _ => true
  | _ => false

/-- Reader-count contribution of one thread. -/
def rInd (t : Thread) : Nat :=
  if inReadSection t.pc then 1 else 0

/-- The untorn pairs: the pre-refresh stored pair, or a pair issued in
one piece by the issuer on the shared key. -/
def CoherentPair (gen : Issuer) (e0 : Int) (t0 : String) (k0 : List Nat)
    (e : Int) (tk : String) : Prop :=
  (e = e0 ∧ tk = t0) ∨ gen "ssgrpcClient" timeHour k0 = Except.ok (e, tk)

/-- Per-thread part of the invariant, relative to the shared state:
locals in the lock zone hold an untorn issuance result, a thread between
its two shared reads agrees with the shared expiry, snapshots and
results of finished calls are untorn, the key snapshot is the shared
key, and the writer between its two writes has already deposited its
expiry. -/
structure ThreadOK (gen : Issuer) (e0 : Int) (t0 : String) (k0 : List Nat)
    (sh : Shared) (t : Thread) : Prop where
  locals_ok : inLockZone t.pc = true → CoherentPair gen e0 t0 k0 t.exp t.tok
  readtok_exp : t.pc = PC.readTok → t.exp = sh.tokenExpire
  snap_ok : inSnapZone t.pc = true → CoherentPair gen e0 t0 k0 t.exp t.tok
  key_snap : inKeyZone t.pc = true → t.key = k0
  done_ok : t.pc = PC.doneOk → CoherentPair gen e0 t0 k0 t.exp t.tok
  writestr_exp : t.pc = PC.writeStr → sh.tokenExpire = t.exp

/-- The inductive invariant of the interleaved semantics: lock-state
accounting (the reader count counts the threads in the read section, the
writer flag marks the unique thread in the write section, which excludes
readers) and value coherence (the shared pair is untorn except while the
writer is between its two field writes, and every thread satisfies
`ThreadOK`). -/
structure Inv (gen : Issuer) (e0 : Int) (t0 : String) (k0 : List Nat) {n : Nat}
    (c : Config n) : Prop where
  key_eq : c.shared.sharedKey = k0
  readers_eq : c.shared.readers = ∑ j : Fin n, rInd (c.threads j)
  ws_writer : ∀ i, inWriteSection (c.threads i).pc = true → c.shared.writer = true
  writer_ws : c.shared.writer = true → ∃ i, inWriteSection (c.threads i).pc = true
  writer_readers : c.shared.writer = true → c.shared.readers = 0
  ws_unique : ∀ i j, inWriteSection (c.threads i).pc = true →
    inWriteSection (c.threads j).pc = true → i = j
  shared_ok : (∀ i, (c.threads i).pc ≠ PC.writeStr) →
    CoherentPair gen e0 t0 k0 c.shared.tokenExpire c.shared.tokenStr
  threads_ok : ∀ j, ThreadOK gen e0 t0 k0 c.shared (c.threads j)

theorem inv_init (gen : Issuer) (n : Nat) (e0 : Int) (t0 : String) (k0 : List Nat)
    (nows : Fin n → Int) : Inv gen e0 t0 k0 (initConfig n e0 t0 k0 nows) := by
  refine ⟨rfl, ?_, ?_, ?_, ?_, ?_, ?_, ?_⟩
  · simp [initConfig, initThread, rInd, inReadSection]
  · intro j h
    simp [initConfig, initThread, inWriteSection] at h
  · intro h
    simp [initConfig] at h
  · intro h
    simp [initConfig] at h
  · intro j j2 h1 h2
    simp [initConfig, initThread, inWriteSection] at h1
  · intro h
    exact Or.inl ⟨rfl, rfl⟩
  · intro j
    refine ⟨?_, ?_, ?_, ?_, ?_, ?_⟩ <;> intro h <;>
      simp [initConfig, initThread, inLockZone, inSnapZone, inKeyZone] at h

theorem sum_update_thread {n : Nat} (f : Fin n → Thread) (i : Fin n) (t2 : Thread)
    (w : Thread → Nat) :
    (∑ j : Fin n, w (Function.update f i t2 j)) + w (f i)
      = (∑ j : Fin n, w (f j)) + w t2 := by
  have h1 : (fun j => w (Function.update f i t2 j))
      = Function.update (fun j => w (f j)) i (w t2) := by
    funext j
    by_cases hj : j = i
    · subst hj; simp
    · simp [Function.update_apply, hj]
  have h2 := Finset.add_sum_erase Finset.univ (fun j => w (f j)) (Finset.mem_univ i)
  simp only at h2
  rw [h1, Finset.sum_update_of_mem (Finset.mem_univ i), ← Finset.erase_eq, ← h2]
  omega

theorem sum_rInd_update {n : Nat} (f : Fin n → Thread) (i : Fin n) (t2 : Thread) :
    (∑ j : Fin n, rInd (Function.update f i t2 j)) + rInd (f i)
      = (∑ j : Fin n, rInd (f j)) + rInd t2 :=
  sum_update_thread f i t2 rInd

theorem readers_pos_of_reader {gen : Issuer} {e0 : Int} {t0 : String} {k0 : List Nat}
    {n : Nat} {c : Config n} (hinv : Inv gen e0 t0 k0 c) (i : Fin n)
    (hri : inReadSection (c.threads i).pc = true) : 1 ≤ c.shared.readers := by
  have h1 : rInd (c.threads i) = 1 := by simp [rInd, hri]
  have h2 := Finset.add_sum_erase Finset.univ (fun j => rInd (c.threads j))
    (Finset.mem_univ i)
  simp only at h2
  rw [hinv.readers_eq, ← h2, h1]
  omega

theorem no_ws_of_reader {gen : Issuer} {e0 : Int} {t0 : String} {k0 : List Nat}
    {n : Nat} {c : Config n} (hinv : Inv gen e0 t0 k0 c) (i : Fin n)
    (hri : inReadSection (c.threads i).pc = true) :
    ∀ j, inWriteSection (c.threads j).pc = false := by
  intro j
  by_contra h
  have hws : inWriteSection (c.threads j).pc = true := by
    cases hbool : inWriteSection (c.threads j).pc
    · exact absurd hbool h
    · rfl
  have hw := hinv.ws_writer j hws
  have h0 := hinv.writer_readers hw
  have h1 := readers_pos_of_reader hinv i hri
  omega

theorem ne_writeStr_of_not_ws {p : PC} (h : inWriteSection p = false) :
    p ≠ PC.writeStr := by
  intro he
  rw [he] at h
  simp [inWriteSection] at h

theorem ThreadOK.mono {gen : Issuer} {e0 : Int} {t0 : String} {k0 : List Nat}
    {sh sh2 : Shared} {t : Thread} (h : ThreadOK gen e0 t0 k0 sh t)
    (he : sh2.tokenExpire = sh.tokenExpire) : ThreadOK gen e0 t0 k0 sh2 t :=
  ⟨h.locals_ok, fun hp => (h.readtok_exp hp).trans he.symm, h.snap_ok, h.key_snap,
    h.done_ok, fun hp => he.trans (h.writestr_exp hp)⟩

theorem inv_step {gen : Issuer} {e0 : Int} {t0 : String} {k0 : List Nat} {n : Nat}
    {c c2 : Config n} (hinv : Inv gen e0 t0 k0 c) (hstep : Step gen c c2) :
    Inv gen e0 t0 k0 c2 := by
  cases hstep with
  | mk i s2 t2 ht =>
  cases ht with
  | rlock hpc hw =>
    refine ⟨hinv.key_eq, ?_, ?_, ?_, ?_, ?_, ?_, ?_⟩
    · have hsum := sum_rInd_update c.threads i { c.threads i with pc := PC.readExp }
      have h1 : rInd (c.threads i) = 0 := by simp [rInd, inReadSection, hpc]
      have h2 : rInd { c.threads i with pc := PC.readExp } = 1 := by
        simp [rInd, inReadSection]
      have h0 := hinv.readers_eq
      dsimp only at hsum h2 ⊢
      omega
    · dsimp only
      intro j hws
      by_cases hj : j = i
      · rw [hj, Function.update_same] at hws
        simp [inWriteSection] at hws
      · rw [Function.update_noteq hj] at hws
        exact hinv.ws_writer j hws
    · dsimp only
      intro hwt
      rw [hw] at hwt
      simp at hwt
    · dsimp only
      intro hwt
      rw [hw] at hwt
      simp at hwt
    · dsimp only
      intro j j2 h1 h2
      by_cases hj : j = i
      · rw [hj, Function.update_same] at h1
        simp [inWriteSection] at h1
      · by_cases hj2 : j2 = i
        · subst hj2
          rw [Function.update_same] at h2
          simp [inWriteSection] at h2
        · rw [Function.update_noteq hj] at h1
          rw [Function.update_noteq hj2] at h2
          exact hinv.ws_unique j j2 h1 h2
    · dsimp only
      intro h2
      apply hinv.shared_ok
      intro j
      by_cases hj : j = i
      · subst hj
        simp [hpc]
      · have h3 := h2 j
        rw [Function.update_noteq hj] at h3
        exact h3
    · dsimp only
      intro j
      by_cases hj : j = i
      · rw [hj, Function.update_same]
        refine ⟨?_, ?_, ?_, ?_, ?_, ?_⟩ <;> intro h <;>
          simp [inLockZone, inSnapZone, inKeyZone] at h
      · rw [Function.update_noteq hj]
        exact (hinv.threads_ok j).mono rfl
  | readExp hpc =>
    refine ⟨hinv.key_eq, ?_, ?_, ?_, hinv.writer_readers, ?_, ?_, ?_⟩
    · have hsum := sum_rInd_update c.threads i
        { c.threads i with pc := PC.readTok, exp := c.shared.tokenExpire }
      have h1 : rInd (c.threads i) = 1 := by simp [rInd, inReadSection, hpc]
      have h2 : rInd { c.threads i with pc := PC.readTok, exp := c.shared.tokenExpire }
          = 1 := by simp [rInd, inReadSection]
      have h0 := hinv.readers_eq
      dsimp only at hsum h2 ⊢
      omega
    · dsimp only
      intro j hws
      by_cases hj : j = i
      · rw [hj, Function.update_same] at hws
        simp [inWriteSection] at hws
      · rw [Function.update_noteq hj] at hws
        exact hinv.ws_writer j hws
    · dsimp only
      intro hwt
      obtain ⟨j, hj2⟩ := hinv.writer_ws hwt
      have hji : j ≠ i := by
        intro he
        subst he
        rw [hpc] at hj2
        simp [inWriteSection] at hj2
      exact ⟨j, by rw [Function.update_noteq hji]; exact hj2⟩
    · dsimp only
      intro j j2 h1 h2
      by_cases hj : j = i
      · rw [hj, Function.update_same] at h1
        simp [inWriteSection] at h1
      · by_cases hj2 : j2 = i
        · subst hj2
          rw [Function.update_same] at h2
          simp [inWriteSection] at h2
        · rw [Function.update_noteq hj] at h1
          rw [Function.update_noteq hj2] at h2
          exact hinv.ws_unique j j2 h1 h2
    · dsimp only
      intro h2
      apply hinv.shared_ok
      intro j
      by_cases hj : j = i
      · subst hj
        simp [hpc]
      · have h3 := h2 j
        rw [Function.update_noteq hj] at h3
        exact h3
    · dsimp only
      intro j
      by_cases hj : j = i
      · rw [hj, Function.update_same]
        refine ⟨?_, ?_, ?_, ?_, ?_, ?_⟩ <;> intro h
        · simp [inLockZone] at h
        · rfl
        · simp [inSnapZone] at h
        · simp [inKeyZone] at h
        · simp at h
        · simp at h
      · rw [Function.update_noteq hj]
        exact (hinv.threads_ok j).mono rfl
  | readTok hpc =>
    have hri : inReadSection (c.threads i).pc = true := by simp [inReadSection, hpc]
    have hnws := no_ws_of_reader hinv i hri
    have hcoh : CoherentPair gen e0 t0 k0 c.shared.tokenExpire c.shared.tokenStr :=
      hinv.shared_ok (fun j => ne_writeStr_of_not_ws (hnws j))
    have hexp : (c.threads i).exp = c.shared.tokenExpire :=
      (hinv.threads_ok i).readtok_exp hpc
    refine ⟨hinv.key_eq, ?_, ?_, ?_, hinv.writer_readers, ?_, ?_, ?_⟩
    · have hsum := sum_rInd_update c.threads i
        { c.threads i with pc := PC.readKey, tok := c.shared.tokenStr }
      have h1 : rInd (c.threads i) = 1 := by simp [rInd, inReadSection, hpc]
      have h2 : rInd { c.threads i with pc := PC.readKey, tok := c.shared.tokenStr }
          = 1 := by simp [rInd, inReadSection]
      have h0 := hinv.readers_eq
      dsimp only at hsum h2 ⊢
      omega
    · dsimp only
      intro j hws
      by_cases hj : j = i
      · rw [hj, Function.update_same] at hws
        simp [inWriteSection] at hws
      · rw [Function.update_noteq hj] at hws
        exact hinv.ws_writer j hws
    · dsimp only
      intro hwt
      obtain ⟨j, hj2⟩ := hinv.writer_ws hwt
      have hji : j ≠ i := by
        intro he
        subst he
        rw [hpc] at hj2
        simp [inWriteSection] at hj2
      exact ⟨j, by rw [Function.update_noteq hji]; exact hj2⟩
    · dsimp only
      intro j j2 h1 h2
      by_cases hj : j = i
      · rw [hj, Function.update_same] at h1
        simp [inWriteSection] at h1
      · by_cases hj2 : j2 = i
        · subst hj2
          rw [Function.update_same] at h2
          simp [inWriteSection] at h2
        · rw [Function.update_noteq hj] at h1
          rw [Function.update_noteq hj2] at h2
          exact hinv.ws_unique j j2 h1 h2
    · dsimp only
      intro h2
      apply hinv.shared_ok
      intro j
      by_cases hj : j = i
      · subst hj
        simp [hpc]
      · have h3 := h2 j
        rw [Function.update_noteq hj] at h3
        exact h3
    · dsimp only
      intro j
      by_cases hj : j = i
      · rw [hj, Function.update_same]
        refine ⟨?_, ?_, ?_, ?_, ?_, ?_⟩ <;> intro h
        · simp [inLockZone] at h
        · simp at h
        · dsimp only
          rw [hexp]
          exact hcoh
        · simp [inKeyZone] at h
        · simp at h
        · simp at h
      · rw [Function.update_noteq hj]
        exact (hinv.threads_ok j).mono rfl
  | readKey hpc =>
    refine ⟨hinv.key_eq, ?_, ?_, ?_, hinv.writer_readers, ?_, ?_, ?_⟩
    · have hsum := sum_rInd_update c.threads i
        { c.threads i with pc := PC.runlock, key := c.shared.sharedKey }
      have h1 : rInd (c.threads i) = 1 := by simp [rInd, inReadSection, hpc]
      have h2 : rInd { c.threads i with pc := PC.runlock, key := c.shared.sharedKey }
          = 1 := by simp [rInd, inReadSection]
      have h0 := hinv.readers_eq
      dsimp only at hsum h2 ⊢
      omega
    · dsimp only
      intro j hws
      by_cases hj : j = i
      · rw [hj, Function.update_same] at hws
        simp [inWriteSection] at hws
      · rw [Function.update_noteq hj] at hws
        exact hinv.ws_writer j hws
    · dsimp only
      intro hwt
      obtain ⟨j, hj2⟩ := hinv.writer_ws hwt
      have hji : j ≠ i := by
        intro he
        subst he
        rw [hpc] at hj2
        simp [inWriteSection] at hj2
      exact ⟨j, by rw [Function.update_noteq hji]; exact hj2⟩
    · dsimp only
      intro j j2 h1 h2
      by_cases hj : j = i
      · rw [hj, Function.update_same] at h1
        simp [inWriteSection] at h1
      · by_cases hj2 : j2 = i
        · subst hj2
          rw [Function.update_same] at h2
          simp [inWriteSection] at h2
        · rw [Function.update_noteq hj] at h1
          rw [Function.update_noteq hj2] at h2
          exact hinv.ws_unique j j2 h1 h2
    · dsimp only
      intro h2
      apply hinv.shared_ok
      intro j
      by_cases hj : j = i
      · subst hj
        simp [hpc]
      · have h3 := h2 j
        rw [Function.update_noteq hj] at h3
        exact h3
    · dsimp only
      intro j
      by_cases hj : j = i
      · rw [hj, Function.update_same]
        refine ⟨?_, ?_, ?_, ?_, ?_, ?_⟩ <;> intro h
        · simp [inLockZone] at h
        · simp at h
        · exact (hinv.threads_ok i).snap_ok (by simp [inSnapZone, hpc])
        · exact hinv.key_eq
        · simp at h
        · simp at h
      · rw [Function.update_noteq hj]
        exact (hinv.threads_ok j).mono rfl
  | runlock hpc =>
    refine ⟨hinv.key_eq, ?_, ?_, ?_, ?_, ?_, ?_, ?_⟩
    · have hsum := sum_rInd_update c.threads i { c.threads i with pc := PC.check }
      have h1 : rInd (c.threads i) = 1 := by simp [rInd, inReadSection, hpc]
      have h2 : rInd { c.threads i with pc := PC.check } = 0 := by
        simp [rInd, inReadSection]
      have h0 := hinv.readers_eq
      dsimp only at hsum h2 ⊢
      omega
    · dsimp only
      intro j hws
      by_cases hj : j = i
      · rw [hj, Function.update_same] at hws
        simp [inWriteSection] at hws
      · rw [Function.update_noteq hj] at hws
        exact hinv.ws_writer j hws
    · dsimp only
      intro hwt
      obtain ⟨j, hj2⟩ := hinv.writer_ws hwt
      have hji : j ≠ i := by
        intro he
        subst he
        rw [hpc] at hj2
        simp [inWriteSection] at hj2
      exact ⟨j, by rw [Function.update_noteq hji]; exact hj2⟩
    · dsimp only
      intro hwt
      rw [hinv.writer_readers hwt]
    · dsimp only
      intro j j2 h1 h2
      by_cases hj : j = i
      · rw [hj, Function.update_same] at h1
        simp [inWriteSection] at h1
      · by_cases hj2 : j2 = i
        · subst hj2
          rw [Function.update_same] at h2
          simp [inWriteSection] at h2
        · rw [Function.update_noteq hj] at h1
          rw [Function.update_noteq hj2] at h2
          exact hinv.ws_unique j j2 h1 h2
    · dsimp only
      intro h2
      apply hinv.shared_ok
      intro j
      by_cases hj : j = i
      · subst hj
        simp [hpc]
      · have h3 := h2 j
        rw [Function.update_noteq hj] at h3
        exact h3
    · dsimp only
      intro j
      by_cases hj : j = i
      · rw [hj, Function.update_same]
        refine ⟨?_, ?_, ?_, ?_, ?_, ?_⟩ <;> intro h
        · simp [inLockZone] at h
        · simp at h
        · exact (hinv.threads_ok i).snap_ok (by simp [inSnapZone, hpc])
        · exact (hinv.threads_ok i).key_snap (by simp [inKeyZone, hpc])
        · simp at h
        · simp at h
      · rw [Function.update_noteq hj]
        exact (hinv.threads_ok j).mono rfl
  | checkTrue hpc hcond =>
    refine ⟨hinv.key_eq, ?_, ?_, ?_, hinv.writer_readers, ?_, ?_, ?_⟩
    · have hsum := sum_rInd_update c.threads i { c.threads i with pc := PC.callGen }
      have h1 : rInd (c.threads i) = 0 := by simp [rInd, inReadSection, hpc]
      have h2 : rInd { c.threads i with pc := PC.callGen } = 0 := by
        simp [rInd, inReadSection]
      have h0 := hinv.readers_eq
      dsimp only at hsum h2 ⊢
      omega
    · dsimp only
      intro j hws
      by_cases hj : j = i
      · rw [hj, Function.update_same] at hws
        simp [inWriteSection] at hws
      · rw [Function.update_noteq hj] at hws
        exact hinv.ws_writer j hws
    · dsimp only
      intro hwt
      obtain ⟨j, hj2⟩ := hinv.writer_ws hwt
      have hji : j ≠ i := by
        intro he
        subst he
        rw [hpc] at hj2
        simp [inWriteSection] at hj2
      exact ⟨j, by rw [Function.update_noteq hji]; exact hj2⟩
    · dsimp only
      intro j j2 h1 h2
      by_cases hj : j = i
      · rw [hj, Function.update_same] at h1
        simp [inWriteSection] at h1
      · by_cases hj2 : j2 = i
        · subst hj2
          rw [Function.update_same] at h2
          simp [inWriteSection] at h2
        · rw [Function.update_noteq hj] at h1
          rw [Function.update_noteq hj2] at h2
          exact hinv.ws_unique j j2 h1 h2
    · dsimp only
      intro h2
      apply hinv.shared_ok
      intro j
      by_cases hj : j = i
      · subst hj
        simp [hpc]
      · have h3 := h2 j
        rw [Function.update_noteq hj] at h3
        exact h3
    · dsimp only
      intro j
      by_cases hj : j = i
      · rw [hj, Function.update_same]
        refine ⟨?_, ?_, ?_, ?_, ?_, ?_⟩ <;> intro h
        · simp [inLockZone] at h
        · simp at h
        · simp [inSnapZone] at h
        · exact (hinv.threads_ok i).key_snap (by simp [inKeyZone, hpc])
        · simp at h
        · simp at h
      · rw [Function.update_noteq hj]
        exact (hinv.threads_ok j).mono rfl
  | checkFalse hpc hcond =>
    refine ⟨hinv.key_eq, ?_, ?_, ?_, hinv.writer_readers, ?_, ?_, ?_⟩
    · have hsum := sum_rInd_update c.threads i { c.threads i with pc := PC.doneOk }
      have h1 : rInd (c.threads i) = 0 := by simp [rInd, inReadSection, hpc]
      have h2 : rInd { c.threads i with pc := PC.doneOk } = 0 := by
        simp [rInd, inReadSection]
      have h0 := hinv.readers_eq
      dsimp only at hsum h2 ⊢
      omega
    · dsimp only
      intro j hws
      by_cases hj : j = i
      · rw [hj, Function.update_same] at hws
        simp [inWriteSection] at hws
      · rw [Function.update_noteq hj] at hws
        exact hinv.ws_writer j hws
    · dsimp only
      intro hwt
      obtain ⟨j, hj2⟩ := hinv.writer_ws hwt
      have hji : j ≠ i := by
        intro he
        subst he
        rw [hpc] at hj2
        simp [inWriteSection] at hj2
      exact ⟨j, by rw [Function.update_noteq hji]; exact hj2⟩
    · dsimp only
      intro j j2 h1 h2
      by_cases hj : j = i
      · rw [hj, Function.update_same] at h1
        simp [inWriteSection] at h1
      · by_cases hj2 : j2 = i
        · subst hj2
          rw [Function.update_same] at h2
          simp [inWriteSection] at h2
        · rw [Function.update_noteq hj] at h1
          rw [Function.update_noteq hj2] at h2
          exact hinv.ws_unique j j2 h1 h2
    · dsimp only
      intro h2
      apply hinv.shared_ok
      intro j
      by_cases hj : j = i
      · subst hj
        simp [hpc]
      · have h3 := h2 j
        rw [Function.update_noteq hj] at h3
        exact h3
    · dsimp only
      intro j
      by_cases hj : j = i
      · rw [hj, Function.update_same]
        refine ⟨?_, ?_, ?_, ?_, ?_, ?_⟩ <;> intro h
        · simp [inLockZone] at h
        · simp at h
        · simp [inSnapZone] at h
        · simp [inKeyZone] at h
        · exact (hinv.threads_ok i).snap_ok (by simp [inSnapZone, hpc])
        · simp at h
      · rw [Function.update_noteq hj]
        exact (hinv.threads_ok j).mono rfl
  | genOk uEXP tk hpc hgen =>
    refine ⟨hinv.key_eq, ?_, ?_, ?_, hinv.writer_readers, ?_, ?_, ?_⟩
    · have hsum := sum_rInd_update c.threads i
        { c.threads i with pc := PC.lock, exp := uEXP, tok := tk }
      have h1 : rInd (c.threads i) = 0 := by simp [rInd, inReadSection, hpc]
      have h2 : rInd { c.threads i with pc := PC.lock, exp := uEXP, tok := tk } = 0 := by
        simp [rInd, inReadSection]
      have h0 := hinv.readers_eq
      dsimp only at hsum h2 ⊢
      omega
    · dsimp only
      intro j hws
      by_cases hj : j = i
      · rw [hj, Function.update_same] at hws
        simp [inWriteSection] at hws
      · rw [Function.update_noteq hj] at hws
        exact hinv.ws_writer j hws
    · dsimp only
      intro hwt
      obtain ⟨j, hj2⟩ := hinv.writer_ws hwt
      have hji : j ≠ i := by
        intro he
        subst he
        rw [hpc] at hj2
        simp [inWriteSection] at hj2
      exact ⟨j, by rw [Function.update_noteq hji]; exact hj2⟩
    · dsimp only
      intro j j2 h1 h2
      by_cases hj : j = i
      · rw [hj, Function.update_same] at h1
        simp [inWriteSection] at h1
      · by_cases hj2 : j2 = i
        · subst hj2
          rw [Function.update_same] at h2
          simp [inWriteSection] at h2
        · rw [Function.update_noteq hj] at h1
          rw [Function.update_noteq hj2] at h2
          exact hinv.ws_unique j j2 h1 h2
    · dsimp only
      intro h2
      apply hinv.shared_ok
      intro j
      by_cases hj : j = i
      · subst hj
        simp [hpc]
      · have h3 := h2 j
        rw [Function.update_noteq hj] at h3
        exact h3
    · dsimp only
      intro j
      by_cases hj : j = i
      · rw [hj, Function.update_same]
        have hk : (c.threads i).key = k0 :=
          (hinv.threads_ok i).key_snap (by simp [inKeyZone, hpc])
        refine ⟨?_, ?_, ?_, ?_, ?_, ?_⟩ <;> intro h
        · exact Or.inr (by rw [← hk]; exact hgen)
        · simp at h
        · simp [inSnapZone] at h
        · simp [inKeyZone] at h
        · simp at h
        · simp at h
      · rw [Function.update_noteq hj]
        exact (hinv.threads_ok j).mono rfl
  | genErr msg hpc hgen =>
    refine ⟨hinv.key_eq, ?_, ?_, ?_, hinv.writer_readers, ?_, ?_, ?_⟩
    · have hsum := sum_rInd_update c.threads i { c.threads i with pc := PC.doneErr msg }
      have h1 : rInd (c.threads i) = 0 := by simp [rInd, inReadSection, hpc]
      have h2 : rInd { c.threads i with pc := PC.doneErr msg } = 0 := by
        simp [rInd, inReadSection]
      have h0 := hinv.readers_eq
      dsimp only at hsum h2 ⊢
      omega
    · dsimp only
      intro j hws
      by_cases hj : j = i
      · rw [hj, Function.update_same] at hws
        simp [inWriteSection] at hws
      · rw [Function.update_noteq hj] at hws
        exact hinv.ws_writer j hws
    · dsimp only
      intro hwt
      obtain ⟨j, hj2⟩ := hinv.writer_ws hwt
      have hji : j ≠ i := by
        intro he
        subst he
        rw [hpc] at hj2
        simp [inWriteSection] at hj2
      exact ⟨j, by rw [Function.update_noteq hji]; exact hj2⟩
    · dsimp only
      intro j j2 h1 h2
      by_cases hj : j = i
      · rw [hj, Function.update_same] at h1
        simp [inWriteSection] at h1
      · by_cases hj2 : j2 = i
        · subst hj2
          rw [Function.update_same] at h2
          simp [inWriteSection] at h2
        · rw [Function.update_noteq hj] at h1
          rw [Function.update_noteq hj2] at h2
          exact hinv.ws_unique j j2 h1 h2
    · dsimp only
      intro h2
      apply hinv.shared_ok
      intro j
      by_cases hj : j = i
      · subst hj
        simp [hpc]
      · have h3 := h2 j
        rw [Function.update_noteq hj] at h3
        exact h3
    · dsimp only
      intro j
      by_cases hj : j = i
      · rw [hj, Function.update_same]
        refine ⟨?_, ?_, ?_, ?_, ?_, ?_⟩ <;> intro h <;>
          simp [inLockZone, inSnapZone, inKeyZone] at h
      · rw [Function.update_noteq hj]
        exact (hinv.threads_ok j).mono rfl
  | lock hpc hw hr =>
    refine ⟨hinv.key_eq, ?_, ?_, ?_, ?_, ?_, ?_, ?_⟩
    · have hsum := sum_rInd_update c.threads i { c.threads i with pc := PC.writeExp }
      have h1 : rInd (c.threads i) = 0 := by simp [rInd, inReadSection, hpc]
      have h2 : rInd { c.threads i with pc := PC.writeExp } = 0 := by
        simp [rInd, inReadSection]
      have h0 := hinv.readers_eq
      dsimp only at hsum h2 ⊢
      omega
    · dsimp only
      intro j hws
      rfl
    · dsimp only
      intro hwt
      exact ⟨i, by rw [Function.update_same]; simp [inWriteSection]⟩
    · dsimp only
      intro hwt
      exact hr
    · dsimp only
      intro j j2 h1 h2
      by_cases hj : j = i
      · by_cases hj2 : j2 = i
        · rw [hj, hj2]
        · rw [Function.update_noteq hj2] at h2
          have hcontra := hinv.ws_writer j2 h2
          rw [hw] at hcontra
          simp at hcontra
      · rw [Function.update_noteq hj] at h1
        have hcontra := hinv.ws_writer j h1
        rw [hw] at hcontra
        simp at hcontra
    · dsimp only
      intro h2
      apply hinv.shared_ok
      intro j
      by_cases hj : j = i
      · subst hj
        simp [hpc]
      · have h3 := h2 j
        rw [Function.update_noteq hj] at h3
        exact h3
    · dsimp only
      intro j
      by_cases hj : j = i
      · rw [hj, Function.update_same]
        refine ⟨?_, ?_, ?_, ?_, ?_, ?_⟩ <;> intro h
        · exact (hinv.threads_ok i).locals_ok (by simp [inLockZone, hpc])
        · simp at h
        · simp [inSnapZone] at h
        · simp [inKeyZone] at h
        · simp at h
        · simp at h
      · rw [Function.update_noteq hj]
        exact (hinv.threads_ok j).mono rfl
  | writeExp hpc =>
    have hiws : inWriteSection (c.threads i).pc = true := by simp [inWriteSection, hpc]
    have hwt : c.shared.writer = true := hinv.ws_writer i hiws
    have hr0 : c.shared.readers = 0 := hinv.writer_readers hwt
    refine ⟨hinv.key_eq, ?_, ?_, ?_, hinv.writer_readers, ?_, ?_, ?_⟩
    · have hsum := sum_rInd_update c.threads i { c.threads i with pc := PC.writeStr }
      have h1 : rInd (c.threads i) = 0 := by simp [rInd, inReadSection, hpc]
      have h2 : rInd { c.threads i with pc := PC.writeStr } = 0 := by
        simp [rInd, inReadSection]
      have h0 := hinv.readers_eq
      dsimp only at hsum h2 ⊢
      omega
    · dsimp only
      intro j hws
      exact hwt
    · dsimp only
      intro _
      exact ⟨i, by rw [Function.update_same]; simp [inWriteSection]⟩
    · dsimp only
      intro j j2 h1 h2
      by_cases hj : j = i
      · by_cases hj2 : j2 = i
        · rw [hj, hj2]
        · rw [Function.update_noteq hj2] at h2
          exact absurd (hinv.ws_unique j2 i h2 hiws) hj2
      · rw [Function.update_noteq hj] at h1
        exact absurd (hinv.ws_unique j i h1 hiws) hj
    · dsimp only
      intro h2
      have h3 := h2 i
      rw [Function.update_same] at h3
      simp at h3
    · dsimp only
      intro j
      by_cases hj : j = i
      · rw [hj, Function.update_same]
        refine ⟨?_, ?_, ?_, ?_, ?_, ?_⟩ <;> intro h
        · exact (hinv.threads_ok i).locals_ok (by simp [inLockZone, hpc])
        · simp at h
        · simp [inSnapZone] at h
        · simp [inKeyZone] at h
        · simp at h
        · rfl
      · rw [Function.update_noteq hj]
        refine ⟨(hinv.threads_ok j).locals_ok, ?_, (hinv.threads_ok j).snap_ok,
          (hinv.threads_ok j).key_snap, (hinv.threads_ok j).done_ok, ?_⟩
        · intro h
          exfalso
          have hpos := readers_pos_of_reader hinv j (by simp [inReadSection, h])
          omega
        · intro h
          exact absurd
            (hinv.ws_unique j i (by simp [inWriteSection, h]) hiws) hj
  | writeStr hpc =>
    have hiws : inWriteSection (c.threads i).pc = true := by simp [inWriteSection, hpc]
    have hwt : c.shared.writer = true := hinv.ws_writer i hiws
    refine ⟨hinv.key_eq, ?_, ?_, ?_, hinv.writer_readers, ?_, ?_, ?_⟩
    · have hsum := sum_rInd_update c.threads i { c.threads i with pc := PC.unlock }
      have h1 : rInd (c.threads i) = 0 := by simp [rInd, inReadSection, hpc]
      have h2 : rInd { c.threads i with pc := PC.unlock } = 0 := by
        simp [rInd, inReadSection]
      have h0 := hinv.readers_eq
      dsimp only at hsum h2 ⊢
      omega
    · dsimp only
      intro j hws
      exact hwt
    · dsimp only
      intro _
      exact ⟨i, by rw [Function.update_same]; simp [inWriteSection]⟩
    · dsimp only
      intro j j2 h1 h2
      by_cases hj : j = i
      · by_cases hj2 : j2 = i
        · rw [hj, hj2]
        · rw [Function.update_noteq hj2] at h2
          exact absurd (hinv.ws_unique j2 i h2 hiws) hj2
      · rw [Function.update_noteq hj] at h1
        exact absurd (hinv.ws_unique j i h1 hiws) hj
    · dsimp only
      intro h2
      have he : c.shared.tokenExpire = (c.threads i).exp :=
        (hinv.threads_ok i).writestr_exp hpc
      have hcoh := (hinv.threads_ok i).locals_ok (by simp [inLockZone, hpc])
      rw [he]
      exact hcoh
    · dsimp only
      intro j
      by_cases hj : j = i
      · rw [hj, Function.update_same]
        refine ⟨?_, ?_, ?_, ?_, ?_, ?_⟩ <;> intro h
        · exact (hinv.threads_ok i).locals_ok (by simp [inLockZone, hpc])
        · simp at h
        · simp [inSnapZone] at h
        · simp [inKeyZone] at h
        · simp at h
        · simp at h
      · rw [Function.update_noteq hj]
        exact (hinv.threads_ok j).mono rfl
  | unlock hpc =>
    have hiws : inWriteSection (c.threads i).pc = true := by simp [inWriteSection, hpc]
    refine ⟨hinv.key_eq, ?_, ?_, ?_, ?_, ?_, ?_, ?_⟩
    · have hsum := sum_rInd_update c.threads i { c.threads i with pc := PC.doneOk }
      have h1 : rInd (c.threads i) = 0 := by simp [rInd, inReadSection, hpc]
      have h2 : rInd { c.threads i with pc := PC.doneOk } = 0 := by
        simp [rInd, inReadSection]
      have h0 := hinv.readers_eq
      dsimp only at hsum h2 ⊢
      omega
    · dsimp only
      intro j hws
      by_cases hj : j = i
      · rw [hj, Function.update_same] at hws
        simp [inWriteSection] at hws
      · rw [Function.update_noteq hj] at hws
        exact absurd (hinv.ws_unique j i hws hiws) hj
    · dsimp only
      intro hwt
      simp at hwt
    · dsimp only
      intro hwt
      simp at hwt
    · dsimp only
      intro j j2 h1 h2
      by_cases hj : j = i
      · rw [hj, Function.update_same] at h1
        simp [inWriteSection] at h1
      · rw [Function.update_noteq hj] at h1
        exact absurd (hinv.ws_unique j i h1 hiws) hj
    · dsimp only
      intro h2
      apply hinv.shared_ok
      intro j
      by_cases hj : j = i
      · subst hj
        simp [hpc]
      · have h3 := h2 j
        rw [Function.update_noteq hj] at h3
        exact h3
    · dsimp only
      intro j
      by_cases hj : j = i
      · rw [hj, Function.update_same]
        refine ⟨?_, ?_, ?_, ?_, ?_, ?_⟩ <;> intro h
        · simp [inLockZone] at h
        · simp at h
        · simp [inSnapZone] at h
        · simp [inKeyZone] at h
        · exact (hinv.threads_ok i).locals_ok (by simp [inLockZone, hpc])
        · simp at h
      · rw [Function.update_noteq hj]
        exact (hinv.threads_ok j).mono rfl

theorem inv_reachable {gen : Issuer} {e0 : Int} {t0 : String} {k0 : List Nat} {n : Nat}
    {c1 c2 : Config n} (h0 : Inv gen e0 t0 k0 c1) (hr : Reachable gen c1 c2) :
    Inv gen e0 t0 k0 c2 := by
  induction hr with
  | refl => exact h0
  | tail b c h1 h2 ih => exact inv_step ih h2

theorem Reachable.head {gen : Issuer} {n : Nat} {c1 c2 c3 : Config n}
    (h1 : Step gen c1 c2) (h2 : Reachable gen c2 c3) : Reachable gen c1 c3 := by
  induction h2 with
  | refl => exact Reachable.tail c1 c1 c2 (Reachable.refl c1) h1
  | tail b c hr hs ih => exact Reachable.tail c1 b c ih hs

/-- Every enabled atomic step strictly advances the stepping thread. -/
def pcMeasure : PC → Nat
  | PC.start => 11
  | PC.readExp => 10
  | PC.readTok => 9
  | PC.readKey => 8
  | PC.runlock => 7
  | PC.check => 6
  | PC.callGen => 5
  | PC.lock => 4
  | PC.writeExp => 3
  | PC.writeStr => 2
  | PC.unlock => 1
  | PC.doneOk => 0
  | PC.doneErr _ => 0

/-- Total remaining work of a configuration. -/
def configMeasure {n : Nat} (c : Config n) : Nat :=
  ∑ j : Fin n, pcMeasure (c.threads j).pc

theorem tstep_measure {gen : Issuer} {s : Shared} {t : Thread} {s2 : Shared}
    {t2 : Thread} (h : TStep gen s t s2 t2) : pcMeasure t2.pc < pcMeasure t.pc := by
  cases h <;> simp_all [pcMeasure]

theorem step_measure {gen : Issuer} {n : Nat} {c c2 : Config n} (h : Step gen c c2) :
    configMeasure c2 < configMeasure c := by
  cases h with
  | mk i s2 t2 ht =>
    have hlt := tstep_measure ht
    have hsum := sum_update_thread c.threads i t2 (fun t => pcMeasure t.pc)
    simp only [configMeasure]
    omega

theorem finished_of_measure_zero {p : PC} (h : pcMeasure p = 0) : finished p = true := by
  cases p <;> simp_all [pcMeasure, finished]

theorem progress {gen : Issuer} {e0 : Int} {t0 : String} {k0 : List Nat} {n : Nat}
    {c : Config n} (hinv : Inv gen e0 t0 k0 c)
    (hnf : ∃ i, finished (c.threads i).pc = false) : ∃ c2, Step gen c c2 := by
  by_cases hws : ∃ j, inWriteSection (c.threads j).pc = true
  · obtain ⟨j, hj⟩ := hws
    cases hpc : (c.threads j).pc with
    | writeExp => exact ⟨_, Step.mk c j _ _ (TStep.writeExp c.shared (c.threads j) hpc)⟩
    | writeStr => exact ⟨_, Step.mk c j _ _ (TStep.writeStr c.shared (c.threads j) hpc)⟩
    | unlock => exact ⟨_, Step.mk c j _ _ (TStep.unlock c.shared (c.threads j) hpc)⟩
    | _ => rw [hpc] at hj; simp [inWriteSection] at hj
  · by_cases hrs : ∃ j, inReadSection (c.threads j).pc = true
    · obtain ⟨j, hj⟩ := hrs
      cases hpc : (c.threads j).pc with
      | readExp => exact ⟨_, Step.mk c j _ _ (TStep.readExp c.shared (c.threads j) hpc)⟩
      | readTok => exact ⟨_, Step.mk c j _ _ (TStep.readTok c.shared (c.threads j) hpc)⟩
      | readKey => exact ⟨_, Step.mk c j _ _ (TStep.readKey c.shared (c.threads j) hpc)⟩
      | runlock => exact ⟨_, Step.mk c j _ _ (TStep.runlock c.shared (c.threads j) hpc)⟩
      | _ => rw [hpc] at hj; simp [inReadSection] at hj
    · have hw : c.shared.writer = false := by
        cases hbw : c.shared.writer
        · rfl
        · obtain ⟨j, hj⟩ := hinv.writer_ws hbw
          exact absurd ⟨j, hj⟩ hws
      have hr : c.shared.readers = 0 := by
        rw [hinv.readers_eq]
        apply Finset.sum_eq_zero
        intro j _
        have hnr : inReadSection (c.threads j).pc = false := by
          cases hbr : inReadSection (c.threads j).pc
          · rfl
          · exact absurd ⟨j, hbr⟩ hrs
        simp [rInd, hnr]
      obtain ⟨i, hif⟩ := hnf
      cases hpc : (c.threads i).pc with
      | start => exact ⟨_, Step.mk c i _ _ (TStep.rlock c.shared (c.threads i) hpc hw)⟩
      | readExp => exact absurd ⟨i, by simp [inReadSection, hpc]⟩ hrs
      | readTok => exact absurd ⟨i, by simp [inReadSection, hpc]⟩ hrs
      | readKey => exact absurd ⟨i, by simp [inReadSection, hpc]⟩ hrs
      | runlock => exact absurd ⟨i, by simp [inReadSection, hpc]⟩ hrs
      | check =>
        by_cases hcond : (c.threads i).exp - refreshMargin < (c.threads i).now
        · exact ⟨_, Step.mk c i _ _ (TStep.checkTrue c.shared (c.threads i) hpc hcond)⟩
        · exact ⟨_, Step.mk c i _ _ (TStep.checkFalse c.shared (c.threads i) hpc hcond)⟩
      | callGen =>
        cases hg : gen "ssgrpcClient" timeHour (c.threads i).key with
        | error msg =>
          exact ⟨_, Step.mk c i _ _ (TStep.genErr c.shared (c.threads i) msg hpc hg)⟩
        | ok p =>
          exact ⟨_, Step.mk c i _ _
            (TStep.genOk c.shared (c.threads i) p.1 p.2 hpc (by rw [hg]))⟩
      | lock => exact ⟨_, Step.mk c i _ _ (TStep.lock c.shared (c.threads i) hpc hw hr)⟩
      | writeExp => exact absurd ⟨i, by simp [inWriteSection, hpc]⟩ hws
      | writeStr => exact absurd ⟨i, by simp [inWriteSection, hpc]⟩ hws
      | unlock => exact absurd ⟨i, by simp [inWriteSection, hpc]⟩ hws
      | doneOk => rw [hpc] at hif; simp [finished] at hif
      | doneErr msg => rw [hpc] at hif; simp [finished] at hif

theorem completion_aux (gen : Issuer) (e0 : Int) (t0 : String) (k0 : List Nat)
    (n : Nat) : ∀ (m : Nat) (c : Config n), configMeasure c ≤ m →
    Inv gen e0 t0 k0 c →
    ∃ c2, Reachable gen c c2 ∧ ∀ i, finished (c2.threads i).pc = true := by
  intro m
  induction m with
  | zero =>
    intro c hm _
    refine ⟨c, Reachable.refl c, fun i => ?_⟩
    have h0 : configMeasure c = 0 := Nat.le_zero.mp hm
    have h1 : pcMeasure (c.threads i).pc = 0 := by
      by_contra hne
      have hpos : 1 ≤ pcMeasure (c.threads i).pc := Nat.one_le_iff_ne_zero.mpr hne
      have h2 := Finset.add_sum_erase Finset.univ
        (fun j => pcMeasure ((c.threads j).pc)) (Finset.mem_univ i)
      simp only at h2
      rw [configMeasure] at h0
      omega
    exact finished_of_measure_zero h1
  | succ k ih =>
    intro c hm hinv
    by_cases hall : ∀ i, finished (c.threads i).pc = true
    · exact ⟨c, Reachable.refl c, hall⟩
    · have hnf : ∃ i, finished (c.threads i).pc = false := by
        by_contra hno
        apply hall
        intro i
        cases hbf : finished (c.threads i).pc
        · exact absurd ⟨i, hbf⟩ hno
        · rfl
      obtain ⟨c2, hstep⟩ := progress hinv hnf
      have hlt := step_measure hstep
      obtain ⟨c3, hr, hf⟩ := ih c2 (by omega) (inv_step hinv hstep)
      exact ⟨c3, Reachable.head hstep hr, hf⟩

theorem step_mutation {gen : Issuer} {e0 : Int} {t0 : String} {k0 : List Nat}
    {n : Nat} {c c2 : Config n} (hinv : Inv gen e0 t0 k0 c) (hstep : Step gen c c2)
    (hne : c2.shared.tokenExpire ≠ c.shared.tokenExpire ∨
      c2.shared.tokenStr ≠ c.shared.tokenStr) : c.shared.writer = true := by
  cases hstep with
  | mk i s2 t2 ht =>
  cases ht with
  | writeExp hpc => exact hinv.ws_writer i (by simp [inWriteSection, hpc])
  | writeStr hpc => exact hinv.ws_writer i (by simp [inWriteSection, hpc])
  | rlock hpc hw => rcases hne with h | h <;> exact absurd rfl h
  | readExp hpc => rcases hne with h | h <;> exact absurd rfl h
  | readTok hpc => rcases hne with h | h <;> exact absurd rfl h
  | readKey hpc => rcases hne with h | h <;> exact absurd rfl h
  | runlock hpc => rcases hne with h | h <;> exact absurd rfl h
  | checkTrue hpc hcond => rcases hne with h | h <;> exact absurd rfl h
  | checkFalse hpc hcond => rcases hne with h | h <;> exact absurd rfl h
  | genOk uEXP tk hpc hgen => rcases hne with h | h <;> exact absurd rfl h
  | genErr msg hpc hgen => rcases hne with h | h <;> exact absurd rfl h
  | lock hpc hw hr => rcases hne with h | h <;> exact absurd rfl h
  | unlock hpc => rcases hne with h | h <;> exact absurd rfl h

end Concurrent

/-- C2: in any interleaving of concurrent `GetRequestMetadata` calls on
one credential, (1) every call that has returned without error observed
either the pre-refresh stored pair or a pair minted in one piece by a
single issuance — never a torn value mixing the two; (2) from every
reachable configuration the system can run every call to completion (no
deadlock, every step strictly decreases the remaining work); (3) any
step that mutates the shared token fields is taken with the exclusive
write lock held. -/
theorem getRequestMetadata_concurrent_untorn (gen : Issuer) (n : Nat) (e0 : Int)
    (t0 : String) (k0 : List Nat) (nows : Fin n → Int) (c : Concurrent.Config n)
    (hreach : Concurrent.Reachable gen (Concurrent.initConfig n e0 t0 k0 nows) c) :
    (∀ i, (c.threads i).pc = Concurrent.PC.doneOk →
        Concurrent.CoherentPair gen e0 t0 k0 (c.threads i).exp (c.threads i).tok)
    ∧ (∃ c2, Concurrent.Reachable gen c c2
        ∧ ∀ i, Concurrent.finished (c2.threads i).pc = true)
    ∧ (∀ c2, Concurrent.Step gen c c2 →
        c2.shared.tokenExpire ≠ c.shared.tokenExpire ∨
          c2.shared.tokenStr ≠ c.shared.tokenStr →
        c.shared.writer = true) := by
  have hinv := Concurrent.inv_reachable (Concurrent.inv_init gen n e0 t0 k0 nows) hreach
  refine ⟨fun i hdone => (hinv.threads_ok i).done_ok hdone, ?_, ?_⟩
  · exact Concurrent.completion_aux gen e0 t0 k0 n (Concurrent.configMeasure c) c
      le_rfl hinv
  · exact fun c2 hs hne => Concurrent.step_mutation hinv hs hne

/-- Witness for C2 at a concrete instantiation: one thread, the initial
configuration, a constant issuer. -/
theorem getRequestMetadata_concurrent_untorn_witness :
    (∀ i : Fin 1,
        ((Concurrent.initConfig 1 0 "t" [] (fun _ => 0)).threads i).pc =
          Concurrent.PC.doneOk →
        Concurrent.CoherentPair (fun _ _ _ => Except.ok ((5 : Int), "w")) 0 "t" []
          ((Concurrent.initConfig 1 0 "t" [] (fun _ => 0)).threads i).exp
          ((Concurrent.initConfig 1 0 "t" [] (fun _ => 0)).threads i).tok)
    ∧ (∃ c2, Concurrent.Reachable (fun _ _ _ => Except.ok ((5 : Int), "w"))
          (Concurrent.initConfig 1 0 "t" [] (fun _ => 0)) c2
        ∧ ∀ i, Concurrent.finished (c2.threads i).pc = true)
    ∧ (∀ c2, Concurrent.Step (fun _ _ _ => Except.ok ((5 : Int), "w"))
          (Concurrent.initConfig 1 0 "t" [] (fun _ => 0)) c2 →
        c2.shared.tokenExpire ≠
            (Concurrent.initConfig 1 0 "t" [] (fun _ => 0)).shared.tokenExpire ∨
          c2.shared.tokenStr ≠
            (Concurrent.initConfig 1 0 "t" [] (fun _ => 0)).shared.tokenStr →
        (Concurrent.initConfig 1 0 "t" [] (fun _ => 0)).shared.writer = true) :=
  getRequestMetadata_concurrent_untorn (fun _ _ _ => Except.ok ((5 : Int), "w")) 1 0 "t"
    [] (fun _ => 0) (Concurrent.initConfig 1 0 "t" [] (fun _ => 0))
    (Concurrent.Reachable.refl (Concurrent.initConfig 1 0 "t" [] (fun _ => 0)))

end SSGrpc
